import Mathlib

/-!
Shallow embedding of the Lido node-operator key-checker CLI
(`helpers.py`, `cache.py`, `cli.py`).

Python dict-shaped records are modelled as Lean structures; the `dbm`
byte-string key-value store is modelled as an association list whose keys
distinguish the reserved `"wc"` entry from hex-encoded public keys (in the
real store the `"wc"` key can never collide with a hex string, since hex
strings contain only `[0-9a-f]` characters), and whose values distinguish a
raw hex text (as written by `cache["wc"] = wc.hex()`) from a serialized JSON
record (a JSON object text never equals a hex text, so cross-kind equality
is always false, matching byte-string comparison).  Python `bytes` become
`List Nat`; a hex string becomes its list of nibble values, so `bytes.hex`
is `tohex` and `bytes.fromhex` is `fromhex` (failing on odd length as in
Python).  Process aborts (`exit()`, uncaught exceptions such as `KeyError`
and `IndexError`) become `Except`/`Option` failures.
-/

namespace Lido

/-- A signing key record: fields of the key dicts built by
`list_signing_keys` in `cli.py` (`index`, `key`, `deposit_signature`/
`depositSignature`, `used`), with the pipeline's annotated field
`valid_signature` as an `Option` since a Python dict may lack it. -/
structure Key where
  index : Nat
  key : List Nat
  depositSignature : List Nat
  used : Bool
  valid_signature : Option Bool
deriving DecidableEq, Repr

/-- A node-operator record, as built by `load_network_data` in `cli.py`:
identity/metadata fields plus the ordered `keys` list. -/
structure Operator where
  id : Nat
  name : String
  active : Bool
  stakingLimit : Nat
  keys : List Key
deriving DecidableEq, Repr

/-- Model of `bytes.hex()`: each byte expands to its two hex nibbles. -/
def tohex (bs : List Nat) : List Nat :=
  bs.flatMap (fun b => [b / 16, b % 16])

/-- Model of `bytes.fromhex`: pairs of nibbles recombine into bytes; an odd-length
hex string raises `ValueError` in Python, modelled as `none`. -/
def fromhex : List Nat → Option (List Nat)
  | [] => some []
  | [_] => none
  | h :: l :: rest => (fromhex rest).map (fun bs => (h * 16 + l) :: bs)

/-- Keys of the `dbm` store: the reserved `"wc"` entry or a hex-encoded
public key (never equal, since `"wc"` is not a hex string). -/
inductive CKey where
  | wc : CKey
  | pub : List Nat → CKey
deriving DecidableEq, Repr

/-- The serialized JSON record written by `serialize_key`: the key dict with
`key` and `depositSignature` hex-encoded, other fields passed through. -/
structure StoredRecord where
  index : Nat
  key : List Nat
  depositSignature : List Nat
  used : Bool
  valid_signature : Option Bool
deriving DecidableEq, Repr

/-- Values of the `dbm` store: a raw hex text (the `wc` fingerprint) or a
serialized JSON record; the two byte strings are never equal in Python
(JSON objects start with a brace, hex texts do not). -/
inductive CVal where
  | str : List Nat → CVal
  | record : StoredRecord → CVal
deriving DecidableEq, Repr

/-- The `dbm` cache store: an association list from store key to value;
`len(cache.keys()) == 0` is emptiness of the list. -/
abbrev Store := List (CKey × CVal)

/-- Model of `cache.get(k)`: first binding wins, `None` when absent. -/
def storeGet : Store → CKey → Option CVal
  | [], _ => none
  | (k, v) :: rest, q => if k = q then some v else storeGet rest q

/-- Model of `cache[k] = v`: overwrite the binding if present, else append. -/
def storeSet : Store → CKey → CVal → Store
  | [], q, v => [(q, v)]
  | (k, w) :: rest, q, v =>
    if k = q then (q, v) :: rest else (k, w) :: storeSet rest q v

/-- Failure modes of the cache module: `staleCache` is the `exit()` in
`check_wc`; the other two are the uncaught Python exceptions raised when a
stored value cannot be parsed as a key record (`json.loads` /
`bytes.fromhex` failure) or lacks the `valid_signature` field (`KeyError`). -/
inductive CacheError where
  | staleCache
  | malformedRecord
  | missingValidSignature
deriving DecidableEq, Repr

/-- Embedding of `check_wc(cache, wc)` from `cache.py`: aborts (via `exit()`) iff the
store is non-empty and its `"wc"` entry is absent or differs from
`wc.hex()`. -/
def check_wc (store : Store) (wcb : List Nat) : Except CacheError Unit :=
  let cached_wc := storeGet store CKey.wc
  let is_empty_cache := store.isEmpty
  let is_same_wc := cached_wc.isSome && decide (cached_wc = some (CVal.str (tohex wcb)))
  if !is_empty_cache && !is_same_wc then Except.error CacheError.staleCache
  else Except.ok ()

/-- Embedding of `serialize_key(key)` from `cache.py`: hex-encode the byte fields, pass
the rest through. -/
def serialize_key (k : Key) : StoredRecord :=
  { index := k.index
    key := tohex k.key
    depositSignature := tohex k.depositSignature
    used := k.used
    valid_signature := k.valid_signature }

/-- Embedding of `parse_key(cache.get(...))` from `cache.py`: `None` maps to `None`; a
stored record is decoded back, with `bytes.fromhex` failures (and the
impossible case of JSON-parsing a raw hex text) raising, i.e. erroring. -/
def parse_key : Option CVal → Except CacheError (Option Key)
  | none => Except.ok none
  | some (CVal.str _) => Except.error CacheError.malformedRecord
  | some (CVal.record r) =>
    match fromhex r.key, fromhex r.depositSignature with
    | some kb, some sb =>
      Except.ok (some { index := r.index, key := kb, depositSignature := sb,
                        used := r.used, valid_signature := r.valid_signature })
    | _, _ => Except.error CacheError.malformedRecord

/-- The per-key loop body of `get_keys_from_cache`, over one operator's key
list: returns `(cached_keys, new_keys, warned_keys)` where `warned_keys`
records the hex public keys for which the `"Invalid cache for key"` warning
is printed (record present but `depositSignature` mismatched). -/
def partitionKeys (store : Store) :
    List Key → Except CacheError (List Key × List Key × List (List Nat))
  | [] => Except.ok ([], [], [])
  | k :: rest =>
    match parse_key (storeGet store (CKey.pub (tohex k.key))) with
    | Except.error e => Except.error e
    | Except.ok cached_key =>
      match cached_key with
      | some ck =>
        if ck.depositSignature = k.depositSignature then
          match ck.valid_signature with
          | some v =>
            match partitionKeys store rest with
            | Except.error e => Except.error e
            | Except.ok (cs, ns, ws) =>
              Except.ok ({ k with valid_signature := some v } :: cs, ns, ws)
          | none => Except.error CacheError.missingValidSignature
        else
          match partitionKeys store rest with
          | Except.error e => Except.error e
          | Except.ok (cs, ns, ws) =>
            Except.ok (cs, k :: ns, tohex k.key :: ws)
      | none =>
        match partitionKeys store rest with
        | Except.error e => Except.error e
        | Except.ok (cs, ns, ws) => Except.ok (cs, k :: ns, ws)

/-- The operator loop of `get_keys_from_cache`: spreads each operator's
metadata over the partitioned key lists, accumulating warnings in order. -/
def getKeysOps (store : Store) :
    List Operator → Except CacheError (List Operator × List Operator × List (List Nat))
  | [] => Except.ok ([], [], [])
  | op :: rest =>
    match partitionKeys store op.keys with
    | Except.error e => Except.error e
    | Except.ok (cs, ns, ws) =>
      match getKeysOps store rest with
      | Except.error e => Except.error e
      | Except.ok (restC, restN, restW) =>
        Except.ok ({ op with keys := cs } :: restC,
                   { op with keys := ns } :: restN, ws ++ restW)

/-- Embedding of `get_keys_from_cache(chainId, wc, operators)` from `cache.py`: check
coherency, then partition every operator's keys into cache hits and misses.
The third component models the `click.secho` stale-record warnings. -/
def get_keys_from_cache (store : Store) (wcb : List Nat) (operators : List Operator) :
    Except CacheError (List Operator × List Operator × List (List Nat)) :=
  match check_wc store wcb with
  | Except.error e => Except.error e
  | Except.ok _ => getKeysOps store operators

/-- The inner key loop of `save_keys_to_cache`: upsert one record per key. -/
def saveKeysList (s : Store) : List Key → Store
  | [] => s
  | k :: rest =>
    saveKeysList (storeSet s (CKey.pub (tohex k.key)) (CVal.record (serialize_key k))) rest

/-- The operator loop of `save_keys_to_cache`. -/
def saveOps (s : Store) : List Operator → Store
  | [] => s
  | op :: rest => saveOps (saveKeysList s op.keys) rest

/-- Embedding of `save_keys_to_cache(chainId, wc, operators)` from `cache.py`: check
coherency, write the `wc` fingerprint, then upsert every key's record. -/
def save_keys_to_cache (store : Store) (wcb : List Nat) (operators : List Operator) :
    Except CacheError Store :=
  match check_wc store wcb with
  | Except.error e => Except.error e
  | Except.ok _ =>
    Except.ok (saveOps (storeSet store CKey.wc (CVal.str (tohex wcb))) operators)

/-- The `is_valid_cache` test of `get_keys_from_cache`, as a function of the
store and the live key: the looked-up record exists, parses, and its stored
`depositSignature` equals the live key's, byte for byte. -/
def is_valid_cache (store : Store) (k : Key) : Bool :=
  match parse_key (storeGet store (CKey.pub (tohex k.key))) with
  | Except.ok (some ck) => decide (ck.depositSignature = k.depositSignature)
  | _ => false

/-- The annotation `{**key, "valid_signature": cached_key["valid_signature"]}`
applied to a cache hit (identity on keys whose lookup is not a usable hit). -/
def annotateKey (store : Store) (k : Key) : Key :=
  match parse_key (storeGet store (CKey.pub (tohex k.key))) with
  | Except.ok (some ck) =>
    match ck.valid_signature with
    | some v => { k with valid_signature := some v }
    | none => k
  | _ => k

/-- Embedding of `keys_len(operators)` from `helpers.py`. -/
def keys_len (operators : List Operator) : Nat :=
  (operators.map (fun operator => operator.keys.length)).sum

/-- The `original_op` argument of `find_duplicates` in `cli.py`: either an
operator dict or the string `"all"` (the sentinel compare-against-everything
mode used by `validate_file_keys`). -/
inductive OrigOp where
  | all : OrigOp
  | op : Operator → OrigOp
deriving DecidableEq, Repr

/-- One entry of the `duplicates_found` list of `find_duplicates`:
`{"op": op, "key": second_key}`. -/
structure DupMatch where
  op : Operator
  key : Key
deriving DecidableEq, Repr

/-- Embedding of `find_duplicates(ops, original_op, key)` from `cli.py`: scan every
operator's keys in roster order; report every entry with equal key bytes,
except — when `original_op` is an operator — the entry whose
`(operator id, key index)` equals the probe's. -/
def find_duplicates (ops : List Operator) (original_op : OrigOp) (key : Key) :
    List DupMatch :=
  ops.flatMap (fun op =>
    op.keys.filterMap (fun second_key =>
      if key.key = second_key.key then
        match original_op with
        | OrigOp.all => some { op := op, key := second_key }
        | OrigOp.op oo =>
          if oo.id = op.id ∧ key.index = second_key.index then none
          else some { op := op, key := second_key }
      else none))

/-- The row `[operators[index] for operators in lists]` read by the merge
comprehension in `helpers.py`; `none` models the `IndexError` raised when
some roster is too short. -/
def rowAt (lists : List (List Operator)) (index : Nat) : Option (List Operator) :=
  match lists with
  | [] => some []
  | operators :: rest =>
    match operators[index]?, rowAt rest index with
    | some op, some tail => some (op :: tail)
    | _, _ => none

/-- The comprehension
`[key for operators in lists for key in operators[index]["keys"]]`. -/
def mergeAt (lists : List (List Operator)) (index : Nat) : Option (List Key) :=
  (rowAt lists index).map (fun row => (row.map Operator.keys).flatten)

/-- The indexed loop of `merge_keys`, walking the first roster's operators
from position `index` on. -/
def mergeFrom (lists : List (List Operator)) :
    Nat → List Operator → Option (List Operator)
  | _, [] => some []
  | index, operator :: rest =>
    match mergeAt lists index, mergeFrom lists (index + 1) rest with
    | some ks, some tail => some ({ operator with keys := ks } :: tail)
    | _, _ => none

/-- Embedding of `merge_keys(lists)` from `helpers.py`: iterate the first roster's
operators by position, concatenating that position's keys across all input
rosters; `lists[0]` on an empty input and `operators[index]` on a too-short
roster raise `IndexError`, modelled as `none`. -/
def merge_keys (lists : List (List Operator)) : Option (List Operator) :=
  match lists with
  | [] => none
  | first_operators :: rest => mergeFrom (first_operators :: rest) 0 first_operators

/-- The keys list sitting at position `p` of roster `l` (empty when out of
range); a spec-side accessor used to state merge correctness. -/
def keysAtD (l : List Operator) (p : Nat) : List Key :=
  ((l[p]?).map Operator.keys).getD []

/-! ### Sample data for counterexamples and witnesses -/

/-- A key at index 0. -/
def sampleKey0 : Key :=
  { index := 0, key := [1, 2], depositSignature := [3], used := false,
    valid_signature := none }

/-- A key at index 1 with the same public-key bytes as `sampleKey0`. -/
def sampleKey1 : Key :=
  { index := 1, key := [1, 2], depositSignature := [4], used := false,
    valid_signature := none }

/-- An operator with id 1 holding both sample keys. -/
def sampleOpA : Operator :=
  { id := 1, name := "A", active := true, stakingLimit := 5,
    keys := [sampleKey0, sampleKey1] }

/-- An operator with id 2 (misaligned with `sampleOpA`). -/
def sampleOpB : Operator :=
  { id := 2, name := "B", active := true, stakingLimit := 0,
    keys := [sampleKey1] }

/-! ### Merge lemmas -/

/-- The row read fails exactly when some roster is too short for the index. -/
theorem rowAt_eq_none_iff (lists : List (List Operator)) (p : Nat) :
    rowAt lists p = none ↔ ∃ l ∈ lists, l.length ≤ p := by
  induction lists with
  | nil => simp [rowAt]
  | cons operators rest ih =>
    simp only [rowAt, List.mem_cons]
    constructor
    · intro h
      rcases hop : operators[p]? with _ | op
      · exact ⟨operators, Or.inl rfl, by simpa using hop⟩
      · rcases hrow : rowAt rest p with _ | tail
        · rcases ih.mp hrow with ⟨l, hl, hlen⟩
          exact ⟨l, Or.inr hl, hlen⟩
        · rw [hop, hrow] at h; simp at h
    · rintro ⟨l, hl | hl, hlen⟩
      · subst hl
        rw [List.getElem?_eq_none hlen]
      · rw [ih.mpr ⟨l, hl, hlen⟩]
        rcases operators[p]? with _ | op <;> rfl

/-- When every roster is long enough, `rowAt` returns exactly the operators
at position `p`, in input order. -/
theorem rowAt_eq_of_lt (lists : List (List Operator)) (p : Nat)
    (h : ∀ l ∈ lists, p < l.length) :
    ∃ row, rowAt lists p = some row ∧
      row.map Operator.keys = lists.map (fun l => keysAtD l p) := by
  induction lists with
  | nil => exact ⟨[], rfl, rfl⟩
  | cons operators rest ih =>
    have hp : p < operators.length := h operators (List.mem_cons_self _ _)
    rcases ih (fun l hl => h l (List.mem_cons_of_mem _ hl)) with ⟨row, hrow, hmap⟩
    refine ⟨operators[p] :: row, ?_, ?_⟩
    · simp [rowAt, List.getElem?_eq_getElem hp, hrow]
    · simp [hmap, keysAtD, List.getElem?_eq_getElem hp]

/-- When every roster is long enough, the merge comprehension at position
`p` is the concatenation of that position's keys lists across the rosters. -/
theorem mergeAt_eq_of_lt (lists : List (List Operator)) (p : Nat)
    (h : ∀ l ∈ lists, p < l.length) :
    mergeAt lists p = some ((lists.map (fun l => keysAtD l p)).flatten) := by
  rcases rowAt_eq_of_lt lists p h with ⟨row, hrow, hmap⟩
  simp [mergeAt, hrow, hmap]

/-- The merge comprehension fails exactly when some roster is too short for the index. -/
theorem mergeAt_eq_none_iff (lists : List (List Operator)) (p : Nat) :
    mergeAt lists p = none ↔ ∃ l ∈ lists, l.length ≤ p := by
  rw [← rowAt_eq_none_iff]
  unfold mergeAt
  rcases rowAt lists p with _ | row <;> simp

/-- A failing position inside the first roster's range makes the whole
merge loop fail. -/
theorem mergeFrom_eq_none (lists : List (List Operator)) :
    ∀ (ops : List Operator) (i p : Nat), p < ops.length →
      mergeAt lists (i + p) = none → mergeFrom lists i ops = none := by
  intro ops
  induction ops with
  | nil => intro i p hp _; simp at hp
  | cons op rest ih =>
    intro i p hp hnone
    cases p with
    | zero =>
      simp only [Nat.add_zero] at hnone
      simp [mergeFrom, hnone]
    | succ q =>
      have : mergeFrom lists (i + 1) rest = none := by
        apply ih (i + 1) q (Nat.lt_of_succ_lt_succ hp)
        have heq : i + 1 + q = i + (q + 1) := by omega
        rw [heq]; exact hnone
      simp only [mergeFrom, this]
      rcases mergeAt lists i with _ | ks <;> rfl

/-- The merge loop succeeds when every visited position succeeds. -/
theorem mergeFrom_isSome (lists : List (List Operator)) :
    ∀ (ops : List Operator) (i : Nat),
      (∀ p, p < ops.length → (mergeAt lists (i + p)).isSome) →
      (mergeFrom lists i ops).isSome := by
  intro ops
  induction ops with
  | nil => intro i _; simp [mergeFrom]
  | cons op rest ih =>
    intro i h
    have h0 : (mergeAt lists i).isSome := by simpa using h 0 (Nat.succ_pos _)
    rcases Option.isSome_iff_exists.mp h0 with ⟨ks, hks⟩
    have htail : (mergeFrom lists (i + 1) rest).isSome := by
      apply ih (i + 1)
      intro p hp
      have := h (p + 1) (Nat.succ_lt_succ hp)
      have heq : i + 1 + p = i + (p + 1) := by omega
      rw [heq]; exact this
    rcases Option.isSome_iff_exists.mp htail with ⟨tail, htl⟩
    simp [mergeFrom, hks, htl]

/-- Characterization of a successful merge loop: the output has one entry
per first-roster operator, carrying that operator's metadata and the
position's merged keys. -/
theorem mergeFrom_ok (lists : List (List Operator)) :
    ∀ (ops : List Operator) (i : Nat) (merged : List Operator),
      mergeFrom lists i ops = some merged →
      merged.length = ops.length ∧
        ∀ p op, ops[p]? = some op →
          ∃ ks, mergeAt lists (i + p) = some ks ∧
            merged[p]? = some { op with keys := ks } := by
  intro ops
  induction ops with
  | nil =>
    intro i merged h
    simp only [mergeFrom] at h
    cases h
    exact ⟨rfl, fun p op hp => by simp at hp⟩
  | cons op rest ih =>
    intro i merged h
    simp only [mergeFrom] at h
    rcases hks : mergeAt lists i with _ | ks <;> rw [hks] at h
    · exact absurd h (by simp)
    rcases htl : mergeFrom lists (i + 1) rest with _ | tail <;> rw [htl] at h
    · exact absurd h (by simp)
    cases h
    rcases ih (i + 1) tail htl with ⟨hlen, hpos⟩
    refine ⟨by simp [hlen], ?_⟩
    intro p opq hp
    cases p with
    | zero =>
      rw [List.getElem?_cons_zero] at hp
      cases hp
      exact ⟨ks, by simpa using hks, by simp⟩
    | succ q =>
      rw [List.getElem?_cons_succ] at hp
      rcases hpos q opq hp with ⟨ks', hks', hmq⟩
      refine ⟨ks', ?_, by simpa using hmq⟩
      have heq : i + (q + 1) = i + 1 + q := by omega
      rw [heq]; exact hks'

/-- Membership characterization of `find_duplicates` in operator mode: an
entry is reported iff its key bytes equal the probe's and its
`(operator id, key index)` slot is not exactly the probe's origin slot. -/
theorem mem_find_duplicates_op_iff (ops : List Operator) (oo : Operator)
    (key : Key) (m : DupMatch) :
    m ∈ find_duplicates ops (OrigOp.op oo) key ↔
      m.op ∈ ops ∧ m.key ∈ m.op.keys ∧ key.key = m.key.key ∧
        ¬(oo.id = m.op.id ∧ key.index = m.key.index) := by
  simp only [find_duplicates, List.mem_flatMap, List.mem_filterMap]
  constructor
  · rintro ⟨op, hop, sk, hsk, hf⟩
    split_ifs at hf with h1 h2
    rw [Option.some.injEq] at hf
    cases hf
    exact ⟨hop, hsk, h1, h2⟩
  · rintro ⟨hop, hsk, hbytes, hslot⟩
    exact ⟨m.op, hop, m.key, hsk, by rw [if_pos hbytes, if_neg hslot]⟩

/-- C2: `FindDuplicates` excludes only the exact originating slot.  On the
sample roster (operator id 1, two keys with identical bytes at indices 0 and
1), probing with the operator itself and the index-0 key reports precisely
the index-1 entry; in general, membership in the result is equivalent to a
byte match outside the probe's own `(operator id, key index)` slot. -/
theorem find_duplicates_excludes_only_origin_slot :
    find_duplicates [sampleOpA] (OrigOp.op sampleOpA) sampleKey0 =
      [{ op := sampleOpA, key := sampleKey1 }] ∧
    ∀ (ops : List Operator) (oo : Operator) (key : Key) (m : DupMatch),
      m ∈ find_duplicates ops (OrigOp.op oo) key ↔
        m.op ∈ ops ∧ m.key ∈ m.op.keys ∧ key.key = m.key.key ∧
          ¬(oo.id = m.op.id ∧ key.index = m.key.index) :=
  ⟨by decide, mem_find_duplicates_op_iff⟩

/-- C8: in the sentinel `"all"` mode no self-exclusion applies: an entry is
reported iff its key bytes equal the probe's, whatever its slot. -/
theorem find_duplicates_all_mode_no_exclusion :
    ∀ (ops : List Operator) (key : Key) (m : DupMatch),
      m ∈ find_duplicates ops OrigOp.all key ↔
        m.op ∈ ops ∧ m.key ∈ m.op.keys ∧ key.key = m.key.key := by
  intro ops key m
  simp only [find_duplicates, List.mem_flatMap, List.mem_filterMap]
  constructor
  · rintro ⟨op, hop, sk, hsk, hf⟩
    split_ifs at hf with h1
    rw [Option.some.injEq] at hf
    cases hf
    exact ⟨hop, hsk, h1⟩
  · rintro ⟨hop, hsk, hbytes⟩
    exact ⟨m.op, hop, m.key, hsk, by rw [if_pos hbytes]⟩

/-- C1 counterexample: `merge_keys` performs no roster-shape check at all.
Two rosters with equal operator counts but misaligned operator ids (1
versus 2) merge silently, and so does a second roster that is longer than
the first (the extra operator is ignored); neither input fails. -/
theorem merge_keys_no_mismatch_failure_counterexample :
    sampleOpA.id ≠ sampleOpB.id ∧
    merge_keys [[sampleOpA], [sampleOpB]] =
      some [{ sampleOpA with keys := sampleOpA.keys ++ sampleOpB.keys }] ∧
    merge_keys [[sampleOpA], [sampleOpB, sampleOpA]] =
      some [{ sampleOpA with keys := sampleOpA.keys ++ sampleOpB.keys }] := by
  decide

/-- C1 amended: `merge_keys` checks neither operator counts nor operator
ids; it fails (Python `IndexError`, modelled as `none`) exactly when the
input list of rosters is empty or some later roster has fewer operators
than the first. -/
theorem merge_keys_failure_iff_short_roster :
    merge_keys ([] : List (List Operator)) = none ∧
    ∀ (first : List Operator) (rest : List (List Operator)),
      (merge_keys (first :: rest) = none ↔ ∃ l ∈ rest, l.length < first.length) := by
  refine ⟨rfl, ?_⟩
  intro first rest
  constructor
  · intro h
    by_contra hno
    push_neg at hno
    have hsome : (mergeFrom (first :: rest) 0 first).isSome := by
      apply mergeFrom_isSome
      intro p hp
      rw [Nat.zero_add]
      rcases hat : mergeAt (first :: rest) p with _ | ks
      · rcases (mergeAt_eq_none_iff _ _).mp hat with ⟨l, hl, hlen⟩
        rcases List.mem_cons.mp hl with hl | hl
        · subst hl; omega
        · have := hno l hl; omega
      · rfl
    simp only [merge_keys] at h
    rw [h] at hsome
    simp at hsome
  · rintro ⟨l, hl, hlen⟩
    simp only [merge_keys]
    apply mergeFrom_eq_none (first :: rest) first 0 l.length hlen
    rw [Nat.zero_add]
    exact (mergeAt_eq_none_iff _ _).mpr ⟨l, List.mem_cons_of_mem _ hl, Nat.le_refl _⟩

/-- C9: a successful merge returns one operator per first-roster position,
copying that operator's non-`keys` fields and installing the merged keys;
operators at positions beyond the first roster's length never appear. -/
theorem merge_keys_first_roster_shape :
    ∀ (lists : List (List Operator)) (merged : List Operator),
      merge_keys lists = some merged →
      ∃ first rest, lists = first :: rest ∧
        merged.length = first.length ∧
        ∀ (p : Nat) (op : Operator), first[p]? = some op →
          ∃ ks, mergeAt lists p = some ks ∧
            merged[p]? = some { op with keys := ks } := by
  intro lists merged h
  match lists with
  | [] => exact absurd h (by simp [merge_keys])
  | first :: rest =>
    simp only [merge_keys] at h
    rcases mergeFrom_ok (first :: rest) first 0 merged h with ⟨hlen, hpos⟩
    refine ⟨first, rest, rfl, hlen, ?_⟩
    intro p op hp
    rcases hpos p op hp with ⟨ks, hks, hm⟩
    rw [Nat.zero_add] at hks
    exact ⟨ks, hks, hm⟩

/-- Witness for C9 at a concrete input: two one-operator rosters. -/
theorem merge_keys_first_roster_shape_witness :
    ∃ first rest, ([[sampleOpA], [sampleOpB]] : List (List Operator)) = first :: rest ∧
      ([{ sampleOpA with keys := [sampleKey0, sampleKey1, sampleKey1] }] : List Operator).length = first.length ∧
      ∀ (p : Nat) (op : Operator), first[p]? = some op →
        ∃ ks, mergeAt [[sampleOpA], [sampleOpB]] p = some ks ∧
          ([{ sampleOpA with keys := [sampleKey0, sampleKey1, sampleKey1] }] : List Operator)[p]? = some { op with keys := ks } :=
  merge_keys_first_roster_shape [[sampleOpA], [sampleOpB]]
    [{ sampleOpA with keys := [sampleKey0, sampleKey1, sampleKey1] }] (by decide)

/-- C7: for aligned rosters (every input roster as long as the first),
merging succeeds and the output keys at every operator position are the
concatenation, in input order, of that position's keys lists. -/
theorem merge_keys_concat_per_position :
    ∀ (first : List Operator) (rest : List (List Operator)),
      (∀ l ∈ first :: rest, l.length = first.length) →
      ∃ merged, merge_keys (first :: rest) = some merged ∧
        merged.length = first.length ∧
        ∀ (p : Nat) (op : Operator), first[p]? = some op →
          merged[p]? = some { op with
            keys := ((first :: rest).map (fun l => keysAtD l p)).flatten } := by
  intro first rest h
  have hsome : (mergeFrom (first :: rest) 0 first).isSome := by
    apply mergeFrom_isSome
    intro p hp
    rw [Nat.zero_add,
      mergeAt_eq_of_lt (first :: rest) p (fun l hl => by rw [h l hl]; exact hp)]
    rfl
  rcases Option.isSome_iff_exists.mp hsome with ⟨merged, hm⟩
  refine ⟨merged, by simpa [merge_keys] using hm, ?_, ?_⟩
  · exact (mergeFrom_ok (first :: rest) first 0 merged hm).1
  · intro p op hp
    have hplt : p < first.length := by
      rcases List.getElem?_eq_some.mp hp with ⟨hlt, _⟩
      exact hlt
    rcases (mergeFrom_ok (first :: rest) first 0 merged hm).2 p op hp with ⟨ks, hks, hmp⟩
    rw [Nat.zero_add,
      mergeAt_eq_of_lt (first :: rest) p (fun l hl => by rw [h l hl]; exact hplt)] at hks
    rw [Option.some.injEq] at hks
    rw [hmp, hks]

/-! ### Cache-store lemmas -/

/-- Reading back the key just written. -/
theorem storeGet_storeSet_self (s : Store) (q : CKey) (v : CVal) :
    storeGet (storeSet s q v) q = some v := by
  induction s with
  | nil => simp [storeSet, storeGet]
  | cons kv rest ih =>
    rcases kv with ⟨k, w⟩
    by_cases hk : k = q
    · subst hk; simp [storeSet, storeGet]
    · simp [storeSet, storeGet, hk, ih]

/-- Writing one key leaves every other key's binding unchanged. -/
theorem storeGet_storeSet_ne (s : Store) (q q' : CKey) (v : CVal) (h : q ≠ q') :
    storeGet (storeSet s q v) q' = storeGet s q' := by
  induction s with
  | nil => simp [storeSet, storeGet, h]
  | cons kv rest ih =>
    rcases kv with ⟨k, w⟩
    by_cases hk : k = q
    · subst hk
      simp only [storeSet, if_pos rfl, storeGet]
      rw [if_neg h, if_neg h]
    · simp [storeSet, storeGet, hk, ih]

/-- Round trip: `bytes.fromhex(bytes.hex(bs)) == bs`. -/
theorem fromhex_tohex (bs : List Nat) : fromhex (tohex bs) = some bs := by
  induction bs with
  | nil => rfl
  | cons b rest ih =>
    have hb : b / 16 * 16 + b % 16 = b := by omega
    simp only [tohex, List.flatMap_cons, List.cons_append, List.nil_append] at ih ⊢
    rw [fromhex, ih]
    simp [hb]

/-- Hex encoding is injective. -/
theorem tohex_injective (a b : List Nat) (h : tohex a = tohex b) : a = b := by
  have ha := fromhex_tohex a
  rw [h, fromhex_tohex b] at ha
  exact ((Option.some.injEq _ _).mp ha).symm

/-- Parsing a serialized key record restores the record exactly. -/
theorem parse_serialize (k : Key) :
    parse_key (some (CVal.record (serialize_key k))) = Except.ok (some k) := by
  simp [parse_key, serialize_key, fromhex_tohex]

/-- Re-annotating a key with the `valid_signature` it already carries is the
identity. -/
theorem key_update_vs_self (k : Key) (v : Bool) (h : k.valid_signature = some v) :
    { k with valid_signature := some v } = k := by
  cases k
  subst h
  rfl

/-- The key-saving loop leaves unwritten store keys unchanged. -/
theorem storeGet_saveKeysList_not_written (q : CKey) :
    ∀ (ks : List Key) (s : Store),
      (∀ k' ∈ ks, CKey.pub (tohex k'.key) ≠ q) →
      storeGet (saveKeysList s ks) q = storeGet s q := by
  intro ks
  induction ks with
  | nil => intro s _; rfl
  | cons k rest ih =>
    intro s h
    simp only [saveKeysList]
    rw [ih _ (fun k' hk' => h k' (List.mem_cons_of_mem _ hk')),
      storeGet_storeSet_ne _ _ _ _ (h k (List.mem_cons_self _ _))]

/-- The operator-saving loop leaves unwritten store keys unchanged. -/
theorem storeGet_saveOps_not_written (q : CKey) :
    ∀ (ops : List Operator) (s : Store),
      (∀ op ∈ ops, ∀ k' ∈ op.keys, CKey.pub (tohex k'.key) ≠ q) →
      storeGet (saveOps s ops) q = storeGet s q := by
  intro ops
  induction ops with
  | nil => intro s _; rfl
  | cons op rest ih =>
    intro s h
    simp only [saveOps]
    rw [ih _ (fun op' hop' => h op' (List.mem_cons_of_mem _ hop')),
      storeGet_saveKeysList_not_written _ _ _ (h op (List.mem_cons_self _ _))]

/-- The operator-saving loop never touches the `"wc"` entry. -/
theorem storeGet_saveOps_wc (ops : List Operator) (s : Store) :
    storeGet (saveOps s ops) CKey.wc = storeGet s CKey.wc :=
  storeGet_saveOps_not_written CKey.wc ops s (fun _ _ _ _ => by simp)

/-- Last-write-wins for `saveKeysList`: if some key in the list writes hex
public key `h`, and every such writer stores record `r`, the final binding
at `h` is `r`. -/
theorem storeGet_saveKeysList_last (h : List Nat) (r : StoredRecord) :
    ∀ (ks : List Key) (s : Store),
      (∃ k' ∈ ks, tohex k'.key = h) →
      (∀ k' ∈ ks, tohex k'.key = h → serialize_key k' = r) →
      storeGet (saveKeysList s ks) (CKey.pub h) = some (CVal.record r) := by
  intro ks
  induction ks with
  | nil => rintro s ⟨k', hk', _⟩ _; simp at hk'
  | cons k rest ih =>
    intro s hex hall
    simp only [saveKeysList]
    by_cases hrest : ∃ k' ∈ rest, tohex k'.key = h
    · exact ih _ hrest (fun k' hk' => hall k' (List.mem_cons_of_mem _ hk'))
    · rcases hex with ⟨k', hk', hkey⟩
      rcases List.mem_cons.mp hk' with rfl | hk'mem
      · rw [storeGet_saveKeysList_not_written _ rest _
          (fun k'' hk'' => by
            intro hcon
            rw [CKey.pub.injEq] at hcon
            exact hrest ⟨k'', hk'', hcon⟩)]
        rw [hkey, storeGet_storeSet_self, hall k' (List.mem_cons_self _ _) hkey]
      · exact absurd ⟨k', hk'mem, hkey⟩ hrest

/-- Last-write-wins for `saveOps`, across all operators' keys. -/
theorem storeGet_saveOps_last (h : List Nat) (r : StoredRecord) :
    ∀ (ops : List Operator) (s : Store),
      (∃ op ∈ ops, ∃ k' ∈ op.keys, tohex k'.key = h) →
      (∀ op ∈ ops, ∀ k' ∈ op.keys, tohex k'.key = h → serialize_key k' = r) →
      storeGet (saveOps s ops) (CKey.pub h) = some (CVal.record r) := by
  intro ops
  induction ops with
  | nil => rintro s ⟨op, hop, _⟩ _; simp at hop
  | cons op rest ih =>
    intro s hex hall
    simp only [saveOps]
    by_cases hrest : ∃ op' ∈ rest, ∃ k' ∈ op'.keys, tohex k'.key = h
    · exact ih _ hrest (fun op' hop' => hall op' (List.mem_cons_of_mem _ hop'))
    · rcases hex with ⟨op', hop', hex'⟩
      rcases List.mem_cons.mp hop' with rfl | hop'mem
      · rw [storeGet_saveOps_not_written _ rest _
          (fun op'' hop'' k'' hk'' => by
            intro hcon
            rw [CKey.pub.injEq] at hcon
            exact hrest ⟨op'', hop'', k'', hk'', hcon⟩)]
        exact storeGet_saveKeysList_last h r op'.keys s hex'
          (hall op' (List.mem_cons_self _ _))
      · exact absurd ⟨op', hop'mem, hex'⟩ hrest

/-- Characterization of a successful key partition: the cached side is the
annotated filter of valid hits, the uncached side the filter of misses, both
in input order. -/
theorem partitionKeys_ok_eq (store : Store) :
    ∀ (ks cs ns : List Key) (ws : List (List Nat)),
      partitionKeys store ks = Except.ok (cs, ns, ws) →
      cs = (ks.filter (fun k => is_valid_cache store k)).map (annotateKey store) ∧
      ns = ks.filter (fun k => !(is_valid_cache store k)) := by
  intro ks
  induction ks with
  | nil =>
    intro cs ns ws h
    simp only [partitionKeys, Except.ok.injEq, Prod.mk.injEq] at h
    rcases h with ⟨h1, h2, h3⟩
    subst h1; subst h2
    exact ⟨rfl, rfl⟩
  | cons k rest ih =>
    intro cs ns ws h
    rcases hparse : parse_key (storeGet store (CKey.pub (tohex k.key))) with e | ck
    · simp only [partitionKeys, hparse] at h
      exact absurd h (by simp)
    · rcases ck with _ | ck
      · -- no record: miss
        have hvalid : is_valid_cache store k = false := by
          simp [is_valid_cache, hparse]
        rcases hrest : partitionKeys store rest with e | ⟨cs', ns', ws'⟩
        · simp only [partitionKeys, hparse, hrest] at h
          exact absurd h (by simp)
        · simp only [partitionKeys, hparse, hrest, Except.ok.injEq, Prod.mk.injEq] at h
          rcases h with ⟨h1, h2, h3⟩
          rcases ih cs' ns' ws' hrest with ⟨hc, hn⟩
          subst h1; subst h2
          constructor
          · rw [List.filter_cons_of_neg (by simp [hvalid]), hc]
          · rw [List.filter_cons_of_pos (by simp [hvalid]), hn]
      · by_cases hsig : ck.depositSignature = k.depositSignature
        · -- valid hit
          have hvalid : is_valid_cache store k = true := by
            simp [is_valid_cache, hparse, hsig]
          rcases hvs : ck.valid_signature with _ | v
          · simp only [partitionKeys, hparse, if_pos hsig, hvs] at h
            exact absurd h (by simp)
          · rcases hrest : partitionKeys store rest with e | ⟨cs', ns', ws'⟩
            · simp only [partitionKeys, hparse, if_pos hsig, hvs, hrest] at h
              exact absurd h (by simp)
            · simp only [partitionKeys, hparse, if_pos hsig, hvs, hrest,
                Except.ok.injEq, Prod.mk.injEq] at h
              rcases h with ⟨h1, h2, h3⟩
              rcases ih cs' ns' ws' hrest with ⟨hc, hn⟩
              subst h1; subst h2
              have hann : annotateKey store k = { k with valid_signature := some v } := by
                simp [annotateKey, hparse, hvs]
              constructor
              · rw [List.filter_cons_of_pos (by simp [hvalid]), List.map_cons, hann, hc]
              · rw [List.filter_cons_of_neg (by simp [hvalid]), hn]
        · -- stale record: miss with warning
          have hvalid : is_valid_cache store k = false := by
            simp [is_valid_cache, hparse, hsig]
          rcases hrest : partitionKeys store rest with e | ⟨cs', ns', ws'⟩
          · simp only [partitionKeys, hparse, if_neg hsig, hrest] at h
            exact absurd h (by simp)
          · simp only [partitionKeys, hparse, if_neg hsig, hrest,
              Except.ok.injEq, Prod.mk.injEq] at h
            rcases h with ⟨h1, h2, h3⟩
            rcases ih cs' ns' ws' hrest with ⟨hc, hn⟩
            subst h1; subst h2
            constructor
            · rw [List.filter_cons_of_neg (by simp [hvalid]), hc]
            · rw [List.filter_cons_of_pos (by simp [hvalid]), hn]

/-- Characterization of a successful operator loop: both outputs are maps
over the input roster, keeping all metadata and partitioning the keys. -/
theorem getKeysOps_ok_eq (store : Store) :
    ∀ (ops cached uncached : List Operator) (ws : List (List Nat)),
      getKeysOps store ops = Except.ok (cached, uncached, ws) →
      cached = ops.map (fun op => { op with
        keys := (op.keys.filter (fun k => is_valid_cache store k)).map (annotateKey store) }) ∧
      uncached = ops.map (fun op => { op with
        keys := op.keys.filter (fun k => !(is_valid_cache store k)) }) := by
  intro ops
  induction ops with
  | nil =>
    intro cached uncached ws h
    simp only [getKeysOps, Except.ok.injEq] at h
    cases h
    exact ⟨rfl, rfl⟩
  | cons op rest ih =>
    intro cached uncached ws h
    rcases hpart : partitionKeys store op.keys with e | ⟨cs, ns, ws'⟩
    · simp only [getKeysOps, hpart] at h
      exact absurd h (by simp)
    rcases hrest : getKeysOps store rest with e | ⟨restC, restN, restW⟩
    · simp only [getKeysOps, hpart, hrest] at h
      exact absurd h (by simp)
    simp only [getKeysOps, hpart, hrest, Except.ok.injEq, Prod.mk.injEq] at h
    rcases h with ⟨h1, h2, h3⟩
    rcases ih restC restN restW hrest with ⟨hc, hn⟩
    rcases partitionKeys_ok_eq store op.keys cs ns ws' hpart with ⟨hcs, hns⟩
    subst h1; subst h2
    constructor
    · rw [List.map_cons, hcs, hc]
    · rw [List.map_cons, hns, hn]

/-- The annotated valid-hit keys and the miss keys of one key list have
lengths summing to the list's length. -/
theorem length_filter_valid_partition (store : Store) (l : List Key) :
    ((l.filter (fun k => is_valid_cache store k)).map (annotateKey store)).length +
    (l.filter (fun k => !(is_valid_cache store k))).length = l.length := by
  induction l with
  | nil => rfl
  | cons k rest ih =>
    cases hk : is_valid_cache store k with
    | true =>
      rw [List.filter_cons_of_pos (by simp [hk]), List.filter_cons_of_neg (by simp [hk])]
      simp only [List.map_cons, List.length_cons]
      omega
    | false =>
      rw [List.filter_cons_of_neg (by simp [hk]), List.filter_cons_of_pos (by simp [hk])]
      simp only [List.length_cons]
      omega

/-- The two filtered key partitions of an operator roster have key counts
summing to the roster's key count. -/
theorem keys_len_filter_partition (store : Store) (ops : List Operator) :
    keys_len (ops.map (fun op => { op with
      keys := (op.keys.filter (fun k => is_valid_cache store k)).map (annotateKey store) })) +
    keys_len (ops.map (fun op => { op with
      keys := op.keys.filter (fun k => !(is_valid_cache store k)) })) = keys_len ops := by
  induction ops with
  | nil => rfl
  | cons op rest ih =>
    simp only [keys_len, List.map_cons, List.sum_cons] at ih ⊢
    have hsplit := length_filter_valid_partition store op.keys
    omega

/-- A stale key record whose signature no longer matches `sampleKey0`. -/
def staleKey : Key := { sampleKey0 with depositSignature := [9] }

/-- A coherent store (fingerprint for credentials `[7]`) holding a stale
record for `sampleKey0`. -/
def staleStore : Store :=
  [(CKey.wc, CVal.str (tohex [7])),
   (CKey.pub (tohex sampleKey0.key), CVal.record (serialize_key staleKey))]

/-- The key `sampleKey0` annotated with a validation outcome, as saved by the
pipeline. -/
def savedKey : Key := { sampleKey0 with valid_signature := some true }

/-- The store produced by saving `savedKey` under credentials `[7]` into an
empty cache. -/
def savedStore : Store :=
  [(CKey.wc, CVal.str (tohex [7])),
   (CKey.pub (tohex savedKey.key), CVal.record (serialize_key savedKey))]

/-- C3: a non-empty cache whose stored `wc` fingerprint differs from the
live credentials' hex makes `check_wc` abort, and both cache operations
fail with the same stale-cache abort for every input roster (in particular
before any per-key lookup can matter); an empty store never fails. -/
theorem stale_wc_rejects_all_cache_ops :
    (∀ (store : Store) (wcb : List Nat) (w : CVal) (ops : List Operator),
      store ≠ [] → storeGet store CKey.wc = some w → w ≠ CVal.str (tohex wcb) →
      check_wc store wcb = Except.error CacheError.staleCache ∧
      get_keys_from_cache store wcb ops = Except.error CacheError.staleCache ∧
      save_keys_to_cache store wcb ops = Except.error CacheError.staleCache) ∧
    ∀ (wcb : List Nat), check_wc ([] : Store) wcb = Except.ok () := by
  constructor
  · intro store wcb w ops hne hget hneq
    have hisempty : store.isEmpty = false := by
      cases store with
      | nil => exact absurd rfl hne
      | cons a b => rfl
    have hcheck : check_wc store wcb = Except.error CacheError.staleCache := by
      simp [check_wc, hget, hisempty, hneq]
    exact ⟨hcheck, by simp [get_keys_from_cache, hcheck],
      by simp [save_keys_to_cache, hcheck]⟩
  · intro wcb; rfl

/-- Witness for C3 at a concrete mismatched store. -/
theorem stale_wc_rejects_all_cache_ops_witness :
    check_wc [(CKey.wc, CVal.str [0, 1])] [2] = Except.error CacheError.staleCache ∧
    get_keys_from_cache [(CKey.wc, CVal.str [0, 1])] [2] [sampleOpA] =
      Except.error CacheError.staleCache ∧
    save_keys_to_cache [(CKey.wc, CVal.str [0, 1])] [2] [sampleOpA] =
      Except.error CacheError.staleCache :=
  stale_wc_rejects_all_cache_ops.1 [(CKey.wc, CVal.str [0, 1])] [2]
    (CVal.str [0, 1]) [sampleOpA] (by decide) (by decide) (by decide)

/-- C10: a non-empty store with no `"wc"` entry at all fails the coherency
check with the same abort as a mismatched fingerprint. -/
theorem missing_wc_fingerprint_fails :
    ∀ (store : Store) (wcb : List Nat), store ≠ [] → storeGet store CKey.wc = none →
      check_wc store wcb = Except.error CacheError.staleCache := by
  intro store wcb hne hget
  have hisempty : store.isEmpty = false := by
    cases store with
    | nil => exact absurd rfl hne
    | cons a b => rfl
  simp [check_wc, hget, hisempty]

/-- Witness for C10: a store holding only one key record. -/
theorem missing_wc_fingerprint_fails_witness :
    check_wc [(CKey.pub [0, 3], CVal.str [9])] [2] = Except.error CacheError.staleCache :=
  missing_wc_fingerprint_fails [(CKey.pub [0, 3], CVal.str [9])] [2]
    (by decide) (by decide)

/-- C4: a successful `get_keys_from_cache` partitions every operator's keys
into the valid-hit filter (annotated) and the miss filter, preserving
operator count, order, metadata and per-operator key order, with the two
outputs' key counts summing to the input's. -/
theorem get_many_partition_bijection :
    ∀ (store : Store) (wcb : List Nat) (ops cached uncached : List Operator)
      (ws : List (List Nat)),
      get_keys_from_cache store wcb ops = Except.ok (cached, uncached, ws) →
      cached = ops.map (fun op => { op with
        keys := (op.keys.filter (fun k => is_valid_cache store k)).map (annotateKey store) }) ∧
      uncached = ops.map (fun op => { op with
        keys := op.keys.filter (fun k => !(is_valid_cache store k)) }) ∧
      cached.length = ops.length ∧ uncached.length = ops.length ∧
      keys_len cached + keys_len uncached = keys_len ops := by
  intro store wcb ops cached uncached ws h
  rcases hchk : check_wc store wcb with e | u
  · simp only [get_keys_from_cache, hchk] at h
    exact absurd h (by simp)
  · simp only [get_keys_from_cache, hchk] at h
    rcases getKeysOps_ok_eq store ops cached uncached ws h with ⟨hc, hn⟩
    subst hc; subst hn
    exact ⟨rfl, rfl, List.length_map _ _, List.length_map _ _,
      keys_len_filter_partition store ops⟩

/-- Witness for C4: an empty store partitions a roster into no hits and all
misses. -/
theorem get_many_partition_bijection_witness :
    ([{ sampleOpA with keys := [] }] : List Operator) =
      [sampleOpA].map (fun op => { op with
        keys := (op.keys.filter (fun k => is_valid_cache ([] : Store) k)).map
          (annotateKey ([] : Store)) }) ∧
    ([sampleOpA] : List Operator) =
      [sampleOpA].map (fun op => { op with
        keys := op.keys.filter (fun k => !(is_valid_cache ([] : Store) k)) }) ∧
    ([{ sampleOpA with keys := [] }] : List Operator).length =
      ([sampleOpA] : List Operator).length ∧
    ([sampleOpA] : List Operator).length = ([sampleOpA] : List Operator).length ∧
    keys_len [{ sampleOpA with keys := [] }] + keys_len [sampleOpA] =
      keys_len [sampleOpA] :=
  get_many_partition_bijection [] [7] [sampleOpA] [{ sampleOpA with keys := [] }]
    [sampleOpA] [] (by rfl)

/-- C5: a key whose cache record exists but stores a different
`depositSignature` is treated as a miss — it lands in the uncached output,
the stale-record warning is emitted for it, and the run continues with an
`ok` result; and a hit is valid exactly when the stored and live signatures
are equal. -/
theorem stale_record_treated_as_miss :
    (∀ (store : Store) (wcb : List Nat) (op' : Operator) (k ck : Key),
      check_wc store wcb = Except.ok () →
      parse_key (storeGet store (CKey.pub (tohex k.key))) = Except.ok (some ck) →
      ck.depositSignature ≠ k.depositSignature →
      get_keys_from_cache store wcb [{ op' with keys := [k] }] =
        Except.ok ([{ op' with keys := [] }], [{ op' with keys := [k] }],
          [tohex k.key])) ∧
    ∀ (store : Store) (k ck : Key),
      parse_key (storeGet store (CKey.pub (tohex k.key))) = Except.ok (some ck) →
      (is_valid_cache store k = true ↔ ck.depositSignature = k.depositSignature) := by
  constructor
  · intro store wcb op' k ck hchk hparse hneq
    simp [get_keys_from_cache, hchk, getKeysOps, partitionKeys, hparse, hneq]
  · intro store k ck hparse
    simp [is_valid_cache, hparse]

/-- Witness for C5: a coherent store with a stale record for `sampleKey0`. -/
theorem stale_record_treated_as_miss_witness :
    get_keys_from_cache staleStore [7] [{ sampleOpB with keys := [sampleKey0] }] =
      Except.ok ([{ sampleOpB with keys := [] }],
        [{ sampleOpB with keys := [sampleKey0] }], [tohex sampleKey0.key]) :=
  stale_record_treated_as_miss.1 staleStore [7] sampleOpB sampleKey0 staleKey
    (by rfl) (by rfl) (by decide)

/-- A key at index 0 whose public-key bytes collide with `dupKeyB`. -/
def dupKeyA : Key :=
  { index := 0, key := [1], depositSignature := [3], used := false,
    valid_signature := some true }

/-- A different key with the same public-key bytes as `dupKeyA` but a
different signature; saved after `dupKeyA`, it overwrites the record. -/
def dupKeyB : Key :=
  { index := 1, key := [1], depositSignature := [5], used := false,
    valid_signature := some false }

/-- The store left after saving both colliding keys into an empty cache:
only `dupKeyB`'s record survives at their shared hex public key. -/
def dupStore : Store :=
  [(CKey.wc, CVal.str (tohex [7])),
   (CKey.pub (tohex dupKeyA.key), CVal.record (serialize_key dupKeyB))]

/-- C6 counterexample: the round trip fails without a uniqueness proviso.
Saving a roster holding two different keys with identical public-key bytes
(`dupKeyA` then `dupKeyB`) leaves only the later record; reading `dupKeyA`
back under the same credentials and its own live `depositSignature` yields
a miss (with a stale-record warning), not a cache hit. -/
theorem save_then_get_overwrite_counterexample :
    dupKeyA ≠ dupKeyB ∧ dupKeyA.key = dupKeyB.key ∧
    save_keys_to_cache [] [7] [{ sampleOpA with keys := [dupKeyA, dupKeyB] }] =
      Except.ok dupStore ∧
    get_keys_from_cache dupStore [7] [{ sampleOpA with keys := [dupKeyA] }] =
      Except.ok ([{ sampleOpA with keys := [] }],
        [{ sampleOpA with keys := [dupKeyA] }], [tohex dupKeyA.key]) :=
  ⟨by decide, by decide, by rfl, by rfl⟩

/-- C6 amended: a key record carrying a `valid_signature` flag, saved
through `save_keys_to_cache`, whose public key is shared by no *other*
saved key (later writes to the same public key overwrite earlier ones), is
read back by `get_keys_from_cache` under the same credentials as a valid
cache hit with the identical `valid_signature`. -/
theorem save_then_get_roundtrip :
    ∀ (store : Store) (wcb : List Nat) (ops : List Operator) (k : Key) (v : Bool)
      (store' : Store) (op' : Operator),
      save_keys_to_cache store wcb ops = Except.ok store' →
      k ∈ ops.flatMap Operator.keys →
      (∀ k' ∈ ops.flatMap Operator.keys, k'.key = k.key → k' = k) →
      k.valid_signature = some v →
      get_keys_from_cache store' wcb [{ op' with keys := [k] }] =
        Except.ok ([{ op' with keys := [k] }], [{ op' with keys := [] }], []) := by
  intro store wcb ops k v store' op' hsave hmem huniq hvs
  have hstore' : store' = saveOps (storeSet store CKey.wc (CVal.str (tohex wcb))) ops := by
    rcases hchk : check_wc store wcb with e | u
    · simp only [save_keys_to_cache, hchk] at hsave
      exact absurd hsave (by simp)
    · simp only [save_keys_to_cache, hchk, Except.ok.injEq] at hsave
      exact hsave.symm
  subst hstore'
  have hwc : storeGet (saveOps (storeSet store CKey.wc (CVal.str (tohex wcb))) ops)
      CKey.wc = some (CVal.str (tohex wcb)) := by
    rw [storeGet_saveOps_wc, storeGet_storeSet_self]
  have hchk' : check_wc (saveOps (storeSet store CKey.wc (CVal.str (tohex wcb))) ops)
      wcb = Except.ok () := by
    simp [check_wc, hwc]
  rcases List.mem_flatMap.mp hmem with ⟨opk, hopk, hkmem⟩
  have hget : storeGet (saveOps (storeSet store CKey.wc (CVal.str (tohex wcb))) ops)
      (CKey.pub (tohex k.key)) = some (CVal.record (serialize_key k)) := by
    apply storeGet_saveOps_last
    · exact ⟨opk, hopk, k, hkmem, rfl⟩
    · intro op2 hop2 k2 hk2 hhex
      have hkey2 : k2.key = k.key := tohex_injective _ _ hhex
      rw [huniq k2 (List.mem_flatMap.mpr ⟨op2, hop2, hk2⟩) hkey2]
  simp [get_keys_from_cache, hchk', getKeysOps, partitionKeys, hget,
    parse_serialize, hvs, key_update_vs_self k v hvs]

/-- Witness for C6: saving `savedKey` into an empty cache and reading it
back. -/
theorem save_then_get_roundtrip_witness :
    get_keys_from_cache savedStore [7] [{ sampleOpB with keys := [savedKey] }] =
      Except.ok ([{ sampleOpB with keys := [savedKey] }],
        [{ sampleOpB with keys := [] }], []) :=
  save_then_get_roundtrip [] [7] [{ sampleOpA with keys := [savedKey] }] savedKey true
    savedStore sampleOpB (by rfl) (by decide) (by decide) (by rfl)

/-- Witness for C7 at a concrete input: two aligned one-operator rosters. -/
theorem merge_keys_concat_per_position_witness :
    ∃ merged, merge_keys [[sampleOpA], [sampleOpB]] = some merged ∧
      merged.length = ([sampleOpA] : List Operator).length ∧
      ∀ (p : Nat) (op : Operator), ([sampleOpA] : List Operator)[p]? = some op →
        merged[p]? = some { op with
          keys := (([[sampleOpA], [sampleOpB]] : List (List Operator)).map
            (fun l => keysAtD l p)).flatten } :=
  merge_keys_concat_per_position [sampleOpA] [[sampleOpB]] (by decide)

end Lido




